import Mathlib

/-!
Shallow embedding of the block-structured hash-indexed directory from
src/assets/code/htree_implementation.c and src/assets/code/htree_benchmark.c.

Machine integers are modelled as Nat with explicit reduction mod 2^32 where
the C code relies on uint32_t wraparound.  C strings are modelled as lists of
byte values (Nat, each < 256 in intended use); a C string cannot contain a NUL
byte, so the list holds exactly the bytes the C loops see.  The fixed-size
entry arrays inside a block are modelled as the list of records written so
far: every read the code performs is bounded by header.entry_count, which in
every state the code constructs equals the number of records written, so the
unwritten tail of the C array is unobservable.

Sizes are taken from the C struct layout on a standard ABI:
  sizeof(struct block_header) = 3 * 4                  = 12
  sizeof(struct dir_entry)    = 4 + 2 + 1 + 1 + 255, padded to 4-byte
                                alignment of the uint32 inode field = 264
  sizeof(struct index_entry)  = 4 + 4                  = 8
hence
  MAX_ENTRIES_PER_BLOCK = (4096 - 12) / 264 = 15
  MAX_INDEX_ENTRIES     = (4096 - 12) / 8   = 510
-/

set_option maxRecDepth 8000

namespace HTree

/-- 2^32, the modulus of uint32_t arithmetic. -/
def U32 : Nat := 4294967296

/-- BLOCK_SIZE from the C sources. -/
def BLOCK_SIZE : Nat := 4096

/-- MAX_FILENAME from the C sources. -/
def MAX_FILENAME : Nat := 255

/-- sizeof(struct block_header). -/
def header_size : Nat := 12

/-- sizeof(struct dir_entry), including the trailing alignment padding. -/
def dir_entry_size : Nat := 264

/-- sizeof(struct index_entry). -/
def index_entry_size : Nat := 8

/-- MAX_ENTRIES_PER_BLOCK = ((BLOCK_SIZE - sizeof(struct block_header)) / sizeof(struct dir_entry)). -/
def MAX_ENTRIES_PER_BLOCK : Nat := (BLOCK_SIZE - header_size) / dir_entry_size

/-- MAX_INDEX_ENTRIES = ((BLOCK_SIZE - sizeof(struct block_header)) / sizeof(struct index_entry)). -/
def MAX_INDEX_ENTRIES : Nat := (BLOCK_SIZE - header_size) / index_entry_size

/-- uint32_t wraparound subtraction (b is at most 2^32 in all uses). -/
def u32_sub (a b : Nat) : Nat := (a + U32 - b) % U32

/-- One step of the loop body of hash_filename:
hash = (hash << 5) + hash + *name, every operation in uint32_t. -/
def hash_step (h b : Nat) : Nat := ((h * 32) % U32 + h + b) % U32

/-- hash_filename from the C sources: h starts at 0 and the loop folds
hash_step over the bytes of the name. -/
def hash_filename (name : List Nat) : Nat := name.foldl hash_step 0

/-- struct block_header. -/
structure block_header where
  block_type : Nat
  entry_count : Nat
  free_space : Nat
deriving DecidableEq, Repr

/-- struct dir_entry.  The name field holds the bytes strncpy wrote
(at most MAX_FILENAME of them). -/
structure dir_entry where
  inode : Nat
  rec_len : Nat
  name_len : Nat
  file_type : Nat
  name : List Nat
deriving DecidableEq, Repr

/-- struct index_entry. -/
structure index_entry where
  hash : Nat
  block_number : Nat
deriving DecidableEq, Repr

/-- struct htree_block.  The C union overlays the two record arrays; in every
state the program builds, a block only ever uses the arm selected by its
block_type, so the embedding keeps both lists and the unused one stays empty. -/
structure htree_block where
  header : block_header
  entries : List dir_entry
  indices : List index_entry
deriving DecidableEq, Repr

/-- struct htree_directory.  num_index_blocks and num_entry_blocks are kept as
explicit counters exactly as in the C struct, alongside the block lists. -/
structure htree_directory where
  root_block : htree_block
  index_blocks : List htree_block
  entry_blocks : List htree_block
  num_index_blocks : Nat
  num_entry_blocks : Nat
deriving DecidableEq, Repr

/-- init_htree_directory from the C sources. -/
def init_htree_directory : htree_directory :=
  { root_block :=
      { header := { block_type := 1, entry_count := 0,
                    free_space := BLOCK_SIZE - header_size },
        entries := [], indices := [] },
    index_blocks := [], entry_blocks := [],
    num_index_blocks := 0, num_entry_blocks := 0 }

/-- The fresh entry block built inside add_entry_block. -/
def new_entry_block : htree_block :=
  { header := { block_type := 3, entry_count := 0,
                free_space := BLOCK_SIZE - header_size },
    entries := [], indices := [] }

/-- add_entry_block (htree_implementation.c lines 71-83): increments
num_entry_blocks, grows the pointer array, and stores a fresh block at
position num_entry_blocks - 1.  The C function returns a pointer to the new
block; the embedding returns the updated directory together with the new
block's position, which for the states the program builds is the length of
the previous entry_blocks array. -/
def add_entry_block (d : htree_directory) : htree_directory × Nat :=
  ({ d with num_entry_blocks := d.num_entry_blocks + 1,
            entry_blocks := d.entry_blocks ++ [new_entry_block] },
   d.entry_blocks.length)

/-- The scan loop of find_entry_block: position of the first block whose
header.entry_count is below MAX_ENTRIES_PER_BLOCK, if any. -/
def find_free_idx : List htree_block → Option Nat
  | [] => none
  | b :: bs =>
      if b.header.entry_count < MAX_ENTRIES_PER_BLOCK then some 0
      else (find_free_idx bs).map (fun i => i + 1)

/-- find_entry_block (htree_implementation.c lines 85-93): scans the entry
blocks in order and returns the first one whose entry_count is below
MAX_ENTRIES_PER_BLOCK; if none qualifies it calls add_entry_block.  The hash
parameter is received but never read, exactly as in the C source. -/
def find_entry_block (d : htree_directory) (hash : Nat) : htree_directory × Nat :=
  match find_free_idx d.entry_blocks with
  | some i => (d, i)
  | none => add_entry_block d

/-- The record insert_file writes (htree_implementation.c lines 99-104):
inode, rec_len = sizeof(struct dir_entry), name_len = strlen(name) stored in
a uint8_t, file_type = 1, and the name copied by
strncpy(entry->name, name, MAX_FILENAME), which keeps at most MAX_FILENAME
bytes. -/
def mk_dir_entry (name : List Nat) (inode : Nat) : dir_entry :=
  { inode := inode, rec_len := dir_entry_size,
    name_len := name.length % 256, file_type := 1,
    name := name.take MAX_FILENAME }

/-- The block mutation insert_file performs: the record is written at array
position entry_count, then entry_count is incremented and free_space is
decremented by sizeof(struct dir_entry) in uint32_t arithmetic. -/
def append_entry (b : htree_block) (e : dir_entry) : htree_block :=
  { b with
    header := { b.header with
                entry_count := b.header.entry_count + 1,
                free_space := u32_sub b.header.free_space dir_entry_size },
    entries := b.entries ++ [e] }

/-- Replace the block at a given position by the image of a function,
modelling mutation through the pointer find_entry_block returned. -/
def modify_block : List htree_block → Nat → (htree_block → htree_block) → List htree_block
  | [], _, _ => []
  | b :: bs, 0, f => f b :: bs
  | b :: bs, n + 1, f => b :: modify_block bs n f

/-- insert_file (htree_implementation.c lines 95-108): hash the name, pick a
block with find_entry_block, and append the record there.  There is no name
length check and no error return. -/
def insert_file (d : htree_directory) (name : List Nat) (inode : Nat) : htree_directory :=
  let hash := hash_filename name
  let r := find_entry_block d hash
  { r.1 with
    entry_blocks :=
      modify_block r.1.entry_blocks r.2
        (fun b => append_entry b (mk_dir_entry name inode)) }

/-- The inner loop of find_file: scan the records of one block in order and
return the first whose stored name equals the searched name byte for byte
(strcmp == 0). -/
def find_in_entries : List dir_entry → List Nat → Option dir_entry
  | [], _ => none
  | e :: es, name => if e.name = name then some e else find_in_entries es name

/-- The outer loop of find_file: scan the entry blocks in order. -/
def find_in_blocks : List htree_block → List Nat → Option dir_entry
  | [], _ => none
  | b :: bs, name =>
      match find_in_entries b.entries name with
      | some e => some e
      | none => find_in_blocks bs name

/-- find_file (htree_benchmark.c lines 147-160): computes the hash of the
name (and never uses it, exactly as in the C source), then scans every entry
block in order for an exact name match, returning NULL when none matches. -/
def find_file (d : htree_directory) (name : List Nat) : Option dir_entry :=
  let hash := hash_filename name
  find_in_blocks d.entry_blocks name

/-- Number of entry blocks whose records find_file's scan examines for a
given name: every block up to and including the one holding the first match,
or every block when there is no match. -/
def blocks_scanned : List htree_block → List Nat → Nat
  | [], _ => 0
  | b :: bs, name =>
      match find_in_entries b.entries name with
      | some _ => 1
      | none => 1 + blocks_scanned bs name

/-- find_file with the directory state threaded through every loop iteration.
The C loop bodies contain no store into the directory or its blocks, so each
iteration passes the state on unchanged. -/
def find_file_thread : htree_directory → List htree_block → List Nat → Option dir_entry × htree_directory
  | d, [], _ => (none, d)
  | d, b :: bs, name =>
      match find_in_entries b.entries name with
      | some e => (some e, d)
      | none => find_file_thread d bs name

/-- State-passing form of find_file, used to state that lookup never mutates
the directory. -/
def find_file_st (d : htree_directory) (name : List Nat) : Option dir_entry × htree_directory :=
  find_file_thread d d.entry_blocks name

/-- All records of a block sequence, in the order find_file's two nested
loops visit them. -/
def entries_of : List htree_block → List dir_entry
  | [] => []
  | b :: bs => b.entries ++ entries_of bs

/-- Fold a list of (name, inode) pairs through insert_file. -/
def insert_list (d : htree_directory) : List (List Nat × Nat) → htree_directory
  | [] => d
  | p :: ps => insert_list (insert_file d p.1 p.2) ps

/-- Directory states reachable from a fresh directory by insertions. -/
inductive Reachable : htree_directory → Prop
  | init : Reachable init_htree_directory
  | insert (d : htree_directory) (name : List Nat) (inode : Nat) :
      Reachable d → Reachable (insert_file d name inode)

/-- Modelled from the spec: stats() is part of the spec's API surface
(section 6) but absent from the C sources; entry_block_count and
index_block_count are the directory's counters and total_entries sums the
entry_count headers of the entry blocks, which is what the benchmark's
reporting reads. -/
structure dir_stats where
  entry_block_count : Nat
  index_block_count : Nat
  total_entries : Nat
deriving DecidableEq, Repr

/-- Sum of the entry_count headers of a block sequence. -/
def count_sum : List htree_block → Nat
  | [] => 0
  | b :: bs => b.header.entry_count + count_sum bs

/-- Modelled from the spec: the stats() observer over the embedded state. -/
def stats (d : htree_directory) : dir_stats :=
  { entry_block_count := d.num_entry_blocks,
    index_block_count := d.num_index_blocks,
    total_entries := count_sum d.entry_blocks }

/-- Modelled from the spec: the hash the spec words as a polynomial
accumulator, h = 0 then h = h * 33 + b per byte, mod 2^32.  Stated separately
from hash_filename so that agreement between the two is a theorem. -/
def hash_spec_accumulator (name : List Nat) : Nat :=
  name.foldl (fun h b => (h * 33 + b) % U32) 0

/-- The routing behaviour claim C3 asserts of find_entry_block: the chosen
block is named by the greatest index record of the root block whose hash is
at most the target hash. -/
def glb_route_claim (d : htree_directory) : Prop :=
  ∀ h : Nat, h < U32 →
    ∃ r, r ∈ d.root_block.indices ∧ r.hash ≤ h ∧
      (∀ s, s ∈ d.root_block.indices → s.hash ≤ h → s.hash ≤ r.hash) ∧
      (find_entry_block d h).2 = r.block_number

/-- The lookup behaviour claim C2 asserts of find_file: whenever the
directory has an entry block, a lookup examines the records of exactly one
entry block. -/
def scans_one_block_claim (d : htree_directory) : Prop :=
  ∀ name : List Nat, 1 ≤ d.num_entry_blocks →
    blocks_scanned d.entry_blocks name = 1

/-- The partition property claim C5 asserts of the root block's index
records: sorted strictly by hash, covering every 32-bit hash (each hash has a
greatest boundary at or below it), and naming only existing entry blocks. -/
def partition_invariant (d : htree_directory) : Prop :=
  d.root_block.indices.Pairwise (fun r s => r.hash < s.hash) ∧
  (∀ h : Nat, h < U32 →
    ∃ r, r ∈ d.root_block.indices ∧ r.hash ≤ h ∧
      ∀ s, s ∈ d.root_block.indices → s.hash ≤ h → s.hash ≤ r.hash) ∧
  (∀ r, r ∈ d.root_block.indices → r.block_number < d.num_entry_blocks)

/-- The per-block capacity bound of claim C6, per block kind: the records
plus the header fit in the 4096-byte block, and entry_count stays at or under
the record capacity of the kind. -/
def capacity_ok (d : htree_directory) : Prop :=
  (d.root_block.header.entry_count * index_entry_size + header_size ≤ BLOCK_SIZE ∧
    d.root_block.header.entry_count ≤ MAX_INDEX_ENTRIES) ∧
  (∀ b ∈ d.index_blocks,
    b.header.entry_count * index_entry_size + header_size ≤ BLOCK_SIZE ∧
      b.header.entry_count ≤ MAX_INDEX_ENTRIES) ∧
  (∀ b ∈ d.entry_blocks,
    b.header.entry_count * dir_entry_size + header_size ≤ BLOCK_SIZE ∧
      b.header.entry_count ≤ MAX_ENTRIES_PER_BLOCK)

/-- add_entry_block as written in htree_benchmark.c lines 98-116, with the
outcome of each allocation passed explicitly: realloc_ok tells whether
realloc succeeds, malloc_ok whether the block malloc succeeds.  The C
statement order is: num_entry_blocks is incremented first; then
entry_blocks = realloc(...) replaces the array pointer, so when realloc
fails the array is NULL (modelled as the empty list) while the incremented
counter stands; when the later malloc fails the counter is decremented back
and the grown array keeps its previous contents. -/
def add_entry_block_chk (d : htree_directory) (realloc_ok malloc_ok : Bool) :
    Option Nat × htree_directory :=
  if realloc_ok = false then
    (none, { d with num_entry_blocks := d.num_entry_blocks + 1,
                    entry_blocks := [] })
  else if malloc_ok = false then
    (none, { d with num_entry_blocks := d.num_entry_blocks + 1 - 1 })
  else
    (some d.entry_blocks.length,
     { d with num_entry_blocks := d.num_entry_blocks + 1,
              entry_blocks := d.entry_blocks ++ [new_entry_block] })

/-- find_entry_block of htree_benchmark.c (lines 119-127), which reaches
add_entry_block when every block is full. -/
def find_entry_block_chk (d : htree_directory) (hash : Nat)
    (realloc_ok malloc_ok : Bool) : Option Nat × htree_directory :=
  match find_free_idx d.entry_blocks with
  | some i => (some i, d)
  | none => add_entry_block_chk d realloc_ok malloc_ok

/-- insert_file of htree_benchmark.c (lines 130-144): on a NULL block from
find_entry_block it returns at once — keeping whatever state
add_entry_block already changed. -/
def insert_file_chk (d : htree_directory) (name : List Nat) (inode : Nat)
    (realloc_ok malloc_ok : Bool) : htree_directory :=
  let hash := hash_filename name
  let r := find_entry_block_chk d hash realloc_ok malloc_ok
  match r.1 with
  | none => r.2
  | some i =>
      { r.2 with
        entry_blocks :=
          modify_block r.2.entry_blocks i
            (fun b => append_entry b (mk_dir_entry name inode)) }

/-- A directory holding one record: name "a" (byte 97) with inode 1. -/
def d_c3 : htree_directory := insert_file init_htree_directory [97] 1

/-- A directory holding one record: name "b" (byte 98) with inode 7. -/
def d_c5 : htree_directory := insert_file init_htree_directory [98] 7

/-- Sixteen distinct one-byte names, enough to fill the first entry block
and spill into a second. -/
def pairs16 : List (List Nat × Nat) :=
  (List.range 16).map (fun i => ([i + 1], i + 100))

/-- The directory after the sixteen insertions of pairs16: two entry blocks. -/
def d16 : htree_directory := insert_list init_htree_directory pairs16

/-- Fifteen distinct one-byte names: exactly the record capacity of one
entry block. -/
def ps15 : List (List Nat × Nat) :=
  (List.range 15).map (fun i => ([i + 1], i + 100))

/-- A 300-byte name, beyond the MAX_FILENAME bound. -/
def name300 : List Nat := List.replicate 300 97

/-! ### Helper lemmas -/

lemma hash_step_eq (h b : Nat) : hash_step h b = (h * 33 + b) % U32 := by
  unfold hash_step U32
  omega

lemma hash_foldl_eq (l : List Nat) :
    ∀ a : Nat, l.foldl hash_step a = l.foldl (fun h b => (h * 33 + b) % U32) a := by
  induction l with
  | nil => intro a; rfl
  | cons x xs ih =>
      intro a
      simp only [List.foldl_cons, hash_step_eq, ih]

lemma find_in_entries_append (xs ys : List dir_entry) (n : List Nat) :
    find_in_entries (xs ++ ys) n =
      match find_in_entries xs n with
      | some e => some e
      | none => find_in_entries ys n := by
  induction xs with
  | nil => rfl
  | cons e es ih =>
      by_cases h : e.name = n
      · simp [find_in_entries, h]
      · simp [find_in_entries, h, ih]

lemma find_in_blocks_eq_entries_of (bs : List htree_block) (n : List Nat) :
    find_in_blocks bs n = find_in_entries (entries_of bs) n := by
  induction bs with
  | nil => rfl
  | cons b rest ih =>
      simp only [find_in_blocks, entries_of, find_in_entries_append, ih]

lemma find_in_entries_none (xs : List dir_entry) (n : List Nat)
    (h : ∀ x ∈ xs, x.name ≠ n) : find_in_entries xs n = none := by
  induction xs with
  | nil => rfl
  | cons e es ih =>
      have he : e.name ≠ n := h e (List.mem_cons_self e es)
      simp only [find_in_entries, if_neg he]
      exact ih (fun x hx => h x (List.mem_cons_of_mem e hx))

lemma find_in_entries_first_match (A B : List dir_entry) (e : dir_entry)
    (n : List Nat) (hA : ∀ x ∈ A, x.name ≠ n) (he : e.name = n) :
    find_in_entries (A ++ e :: B) n = some e := by
  rw [find_in_entries_append, find_in_entries_none A n hA]
  simp [find_in_entries, he]

lemma find_free_idx_none (bs : List htree_block)
    (h : find_free_idx bs = none) :
    ∀ b ∈ bs, MAX_ENTRIES_PER_BLOCK ≤ b.header.entry_count := by
  induction bs with
  | nil => intro b hb; cases hb
  | cons c rest ih =>
      intro b hb
      by_cases hc : c.header.entry_count < MAX_ENTRIES_PER_BLOCK
      · simp [find_free_idx, hc] at h
      · simp only [find_free_idx, if_neg hc] at h
        rcases List.mem_cons.mp hb with h1 | h2
        · subst h1; omega
        · cases hr : find_free_idx rest with
          | none => exact ih hr b h2
          | some j => rw [hr] at h; simp at h

lemma find_free_idx_some (bs : List htree_block) (i : Nat)
    (h : find_free_idx bs = some i) :
    ∃ b, bs.get? i = some b ∧ b.header.entry_count < MAX_ENTRIES_PER_BLOCK ∧
      ∀ k c, k < i → bs.get? k = some c →
        MAX_ENTRIES_PER_BLOCK ≤ c.header.entry_count := by
  induction bs generalizing i with
  | nil => simp [find_free_idx] at h
  | cons c rest ih =>
      by_cases hc : c.header.entry_count < MAX_ENTRIES_PER_BLOCK
      · simp only [find_free_idx, if_pos hc, Option.some.injEq] at h
        subst h
        exact ⟨c, rfl, hc, fun k x hk => by cases hk⟩
      · simp only [find_free_idx, if_neg hc] at h
        cases hr : find_free_idx rest with
        | none => rw [hr] at h; simp at h
        | some j =>
            rw [hr] at h
            simp only [Option.map_some', Option.some.injEq] at h
            subst h
            rcases ih j hr with ⟨b, hb, hlt, hmin⟩
            refine ⟨b, hb, hlt, ?_⟩
            intro k x hk hx
            cases k with
            | zero =>
                have : x = c := Option.some.inj hx.symm
                subst this; omega
            | succ m =>
                exact hmin m x (by omega) hx

lemma find_free_idx_lt (bs : List htree_block) (i : Nat)
    (h : find_free_idx bs = some i) : i < bs.length := by
  rcases find_free_idx_some bs i h with ⟨b, hb, _⟩
  exact List.get?_eq_some.mp hb |>.1

lemma modify_block_append_last (bs : List htree_block) (b : htree_block)
    (f : htree_block → htree_block) :
    modify_block (bs ++ [b]) bs.length f = bs ++ [f b] := by
  induction bs with
  | nil => rfl
  | cons c rest ih => simp [modify_block, ih]

lemma mem_modify_block (bs : List htree_block) (i : Nat)
    (f : htree_block → htree_block) (c : htree_block)
    (hc : c ∈ modify_block bs i f) :
    c ∈ bs ∨ ∃ b, bs.get? i = some b ∧ c = f b := by
  induction bs generalizing i with
  | nil => cases hc
  | cons b rest ih =>
      cases i with
      | zero =>
          rcases List.mem_cons.mp hc with h1 | h2
          · exact Or.inr ⟨b, rfl, h1⟩
          · exact Or.inl (List.mem_cons_of_mem b h2)
      | succ n =>
          rcases List.mem_cons.mp hc with h1 | h2
          · exact Or.inl (h1 ▸ List.mem_cons_self b rest)
          · rcases ih n h2 with h3 | ⟨x, hx, hcx⟩
            · exact Or.inl (List.mem_cons_of_mem b h3)
            · exact Or.inr ⟨x, hx, hcx⟩

lemma entries_of_append (xs ys : List htree_block) :
    entries_of (xs ++ ys) = entries_of xs ++ entries_of ys := by
  induction xs with
  | nil => rfl
  | cons b rest ih => simp [entries_of, ih]

lemma entries_of_modify (bs : List htree_block) (i : Nat) (e : dir_entry)
    (hi : i < bs.length) :
    ∃ A B, entries_of bs = A ++ B ∧
      entries_of (modify_block bs i (fun b => append_entry b e)) = A ++ e :: B := by
  induction bs generalizing i with
  | nil => cases hi
  | cons b rest ih =>
      cases i with
      | zero =>
          exact ⟨b.entries, entries_of rest, rfl, by
            simp [modify_block, entries_of, append_entry]⟩
      | succ n =>
          have hn : n < rest.length := by
            simpa [List.length_cons, Nat.succ_lt_succ_iff] using hi
          rcases ih n hn with ⟨A, B, h1, h2⟩
          exact ⟨b.entries ++ A, B, by simp [entries_of, h1],
            by simp [modify_block, entries_of, h2]⟩

lemma count_sum_append (xs ys : List htree_block) :
    count_sum (xs ++ ys) = count_sum xs + count_sum ys := by
  induction xs with
  | nil => simp [count_sum]
  | cons b rest ih => simp [count_sum, ih]; omega

lemma count_sum_modify (bs : List htree_block) (i : Nat) (e : dir_entry)
    (hi : i < bs.length) :
    count_sum (modify_block bs i (fun b => append_entry b e)) =
      count_sum bs + 1 := by
  induction bs generalizing i with
  | nil => cases hi
  | cons b rest ih =>
      cases i with
      | zero => simp [modify_block, count_sum, append_entry]; omega
      | succ n =>
          have hn : n < rest.length := by
            simpa [List.length_cons, Nat.succ_lt_succ_iff] using hi
          simp [modify_block, count_sum, ih n hn]
          omega

lemma insert_file_free (d : htree_directory) (n : List Nat) (i j : Nat)
    (h : find_free_idx d.entry_blocks = some j) :
    insert_file d n i =
      { d with entry_blocks := modify_block d.entry_blocks j (fun b => append_entry b (mk_dir_entry n i)) } := by
  simp only [insert_file, find_entry_block, h]

lemma insert_file_full (d : htree_directory) (n : List Nat) (i : Nat)
    (h : find_free_idx d.entry_blocks = none) :
    insert_file d n i =
      { d with num_entry_blocks := d.num_entry_blocks + 1,
               entry_blocks :=
                 d.entry_blocks ++
                   [append_entry new_entry_block (mk_dir_entry n i)] } := by
  simp only [insert_file, find_entry_block, h, add_entry_block,
    modify_block_append_last]

lemma insert_file_root (d : htree_directory) (n : List Nat) (i : Nat) :
    (insert_file d n i).root_block = d.root_block := by
  cases h : find_free_idx d.entry_blocks with
  | some j => rw [insert_file_free d n i j h]
  | none => rw [insert_file_full d n i h]

lemma insert_file_index_blocks (d : htree_directory) (n : List Nat) (i : Nat) :
    (insert_file d n i).index_blocks = d.index_blocks := by
  cases h : find_free_idx d.entry_blocks with
  | some j => rw [insert_file_free d n i j h]
  | none => rw [insert_file_full d n i h]

lemma insert_file_num_index (d : htree_directory) (n : List Nat) (i : Nat) :
    (insert_file d n i).num_index_blocks = d.num_index_blocks := by
  cases h : find_free_idx d.entry_blocks with
  | some j => rw [insert_file_free d n i j h]
  | none => rw [insert_file_full d n i h]

lemma insert_file_entries (d : htree_directory) (n : List Nat) (i : Nat) :
    ∃ A B, entries_of d.entry_blocks = A ++ B ∧
      entries_of (insert_file d n i).entry_blocks =
        A ++ mk_dir_entry n i :: B := by
  cases h : find_free_idx d.entry_blocks with
  | some j =>
      rw [insert_file_free d n i j h]
      exact entries_of_modify d.entry_blocks j (mk_dir_entry n i)
        (find_free_idx_lt d.entry_blocks j h)
  | none =>
      rw [insert_file_full d n i h]
      refine ⟨entries_of d.entry_blocks, [], by simp, ?_⟩
      simp [entries_of_append, entries_of, append_entry, new_entry_block]

lemma insert_file_count_sum (d : htree_directory) (n : List Nat) (i : Nat) :
    count_sum (insert_file d n i).entry_blocks =
      count_sum d.entry_blocks + 1 := by
  cases h : find_free_idx d.entry_blocks with
  | some j =>
      rw [insert_file_free d n i j h]
      exact count_sum_modify d.entry_blocks j (mk_dir_entry n i)
        (find_free_idx_lt d.entry_blocks j h)
  | none =>
      rw [insert_file_full d n i h]
      simp [count_sum_append, count_sum, append_entry, new_entry_block]

lemma reachable_insert_list (ps : List (List Nat × Nat)) :
    ∀ d : htree_directory, Reachable d → Reachable (insert_list d ps) := by
  induction ps with
  | nil => intro d hd; exact hd
  | cons p rest ih =>
      intro d hd
      exact ih (insert_file d p.1 p.2) (Reachable.insert d p.1 p.2 hd)

lemma reachable_static (d : htree_directory) (h : Reachable d) :
    d.root_block = init_htree_directory.root_block ∧
      d.index_blocks = [] ∧ d.num_index_blocks = 0 := by
  induction h with
  | init => exact ⟨rfl, rfl, rfl⟩
  | insert d n i _ ih =>
      exact ⟨by rw [insert_file_root, ih.1],
        by rw [insert_file_index_blocks, ih.2.1],
        by rw [insert_file_num_index, ih.2.2]⟩

lemma reachable_counts (d : htree_directory) (h : Reachable d) :
    ∀ b ∈ d.entry_blocks,
      b.header.entry_count ≤ MAX_ENTRIES_PER_BLOCK := by
  induction h with
  | init => intro b hb; cases hb
  | insert d n i _ ih =>
      intro b hb
      cases hfree : find_free_idx d.entry_blocks with
      | some j =>
          rw [insert_file_free d n i j hfree] at hb
          rcases mem_modify_block d.entry_blocks j _ b hb with hmem | ⟨c, hc, hbc⟩
          · exact ih b hmem
          · rcases find_free_idx_some d.entry_blocks j hfree with ⟨c2, hc2, hlt, -⟩
            have : c = c2 := by rw [hc] at hc2; exact Option.some.inj hc2
            subst this
            subst hbc
            simp only [append_entry]
            omega
      | none =>
          rw [insert_file_full d n i hfree] at hb
          rcases List.mem_append.mp hb with hmem | hmem
          · exact ih b hmem
          · have : b = append_entry new_entry_block (mk_dir_entry n i) := by
              simpa using hmem
            subst this
            simp only [append_entry, new_entry_block]
            decide

lemma take_full (l : List Nat) (n : Nat) (h : l.length ≤ n) : l.take n = l := by
  induction l generalizing n with
  | nil => simp
  | cons x xs ih =>
      cases n with
      | zero => simp at h
      | succ m =>
          simp only [List.take_succ_cons, List.cons.injEq, true_and]
          exact ih m (by simpa using h)

lemma find_in_entries_none_iff (xs : List dir_entry) (n : List Nat) :
    find_in_entries xs n = none ↔ ∀ x ∈ xs, x.name ≠ n := by
  constructor
  · intro h x hx
    induction xs with
    | nil => cases hx
    | cons e es ih =>
        by_cases he : e.name = n
        · simp [find_in_entries, he] at h
        · simp only [find_in_entries, if_neg he] at h
          rcases List.mem_cons.mp hx with h1 | h2
          · subst h1; exact he
          · exact ih h h2
  · exact find_in_entries_none xs n

lemma find_file_thread_eq (d : htree_directory) (bs : List htree_block)
    (name : List Nat) :
    find_file_thread d bs name = (find_in_blocks bs name, d) := by
  induction bs with
  | nil => rfl
  | cons b rest ih =>
      cases h : find_in_entries b.entries name with
      | some e => simp [find_file_thread, find_in_blocks, h]
      | none => simp [find_file_thread, find_in_blocks, h, ih]

lemma insert_file_num_free (d : htree_directory) (n : List Nat) (i j : Nat)
    (h : find_free_idx d.entry_blocks = some j) :
    (insert_file d n i).num_entry_blocks = d.num_entry_blocks := by
  rw [insert_file_free d n i j h]

lemma insert_file_num_full (d : htree_directory) (n : List Nat) (i : Nat)
    (h : find_free_idx d.entry_blocks = none) :
    (insert_file d n i).num_entry_blocks = d.num_entry_blocks + 1 := by
  rw [insert_file_full d n i h]

lemma insert_from_init (n : List Nat) (i : Nat) :
    (insert_file init_htree_directory n i).entry_blocks =
        [append_entry new_entry_block (mk_dir_entry n i)] ∧
      (insert_file init_htree_directory n i).num_entry_blocks = 1 := by
  rw [insert_file_full init_htree_directory n i rfl]
  exact ⟨rfl, rfl⟩

lemma insert_single_block (d : htree_directory) (b : htree_block)
    (n : List Nat) (i : Nat) (hb : d.entry_blocks = [b])
    (hcount : b.header.entry_count < MAX_ENTRIES_PER_BLOCK) :
    (insert_file d n i).entry_blocks =
        [append_entry b (mk_dir_entry n i)] ∧
      (insert_file d n i).num_entry_blocks = d.num_entry_blocks := by
  have hfree : find_free_idx d.entry_blocks = some 0 := by
    rw [hb]; simp [find_free_idx, hcount]
  rw [insert_file_free d n i 0 hfree]
  exact ⟨by rw [hb]; rfl, rfl⟩

lemma insert_list_single (ps : List (List Nat × Nat)) :
    ∀ (d : htree_directory) (b : htree_block),
      d.entry_blocks = [b] → d.num_entry_blocks = 1 →
      b.header.entry_count + ps.length ≤ MAX_ENTRIES_PER_BLOCK →
      ∃ c, (insert_list d ps).entry_blocks = [c] ∧
        (insert_list d ps).num_entry_blocks = 1 ∧
        c.header.entry_count = b.header.entry_count + ps.length := by
  induction ps with
  | nil => intro d b hb hnum _; exact ⟨b, hb, hnum, by simp [insert_list]⟩
  | cons p rest ih =>
      intro d b hb hnum hcap
      have hcount : b.header.entry_count < MAX_ENTRIES_PER_BLOCK := by
        simp only [List.length_cons] at hcap; omega
      rcases insert_single_block d b p.1 p.2 hb hcount with ⟨h1, h2⟩
      rcases ih (insert_file d p.1 p.2) (append_entry b (mk_dir_entry p.1 p.2))
          h1 (by rw [h2, hnum])
          (by simp only [append_entry, List.length_cons] at hcap ⊢; omega) with
        ⟨c, hc1, hc2, hc3⟩
      refine ⟨c, hc1, hc2, ?_⟩
      rw [hc3]
      simp only [append_entry, List.length_cons]
      omega

lemma insert_full_single (d : htree_directory) (b : htree_block)
    (n : List Nat) (i : Nat) (hb : d.entry_blocks = [b])
    (hcount : ¬ b.header.entry_count < MAX_ENTRIES_PER_BLOCK) :
    (insert_file d n i).num_entry_blocks = d.num_entry_blocks + 1 := by
  have hfree : find_free_idx d.entry_blocks = none := by
    rw [hb]; simp [find_free_idx, hcount]
  exact insert_file_num_full d n i hfree

/-! ### Claims -/

/-- C7: for every byte sequence, hash_filename equals the polynomial
accumulator h = 0; h = (h shifted left by 5) + h + b, i.e. h * 33 + b, under
32-bit wraparound arithmetic, and repeated calls on the same name return the
same value. -/
theorem C7_hash_polynomial (name : List Nat) :
    hash_filename name = hash_spec_accumulator name ∧
    ∀ m : List Nat, m = name → hash_filename m = hash_filename name := by
  exact ⟨hash_foldl_eq name 0, fun m hm => by rw [hm]⟩

/-- Witness for C7 at the name "ab". -/
theorem C7_hash_witness :
    hash_filename [97, 98] = hash_spec_accumulator [97, 98] ∧
      hash_filename [97, 98] = hash_filename [97, 98] :=
  ⟨(C7_hash_polynomial [97, 98]).1, (C7_hash_polynomial [97, 98]).2 [97, 98] rfl⟩

/-- C10: find_file leaves the whole directory unchanged: the state-threaded
form of the lookup returns exactly the input directory together with the
value of the pure lookup. -/
theorem C10_find_file_pure (d : htree_directory) (name : List Nat) :
    find_file_st d name = (find_file d name, d) := by
  simpa [find_file_st, find_file] using
    find_file_thread_eq d d.entry_blocks name

/-- C2 counterexample: in the reachable two-block directory d16, looking up
an absent name examines the records of both entry blocks, not exactly one,
refuting the claim that lookup scans a single routed block. -/
theorem C2_counterexample :
    Reachable d16 ∧ d16.num_entry_blocks = 2 ∧
      blocks_scanned d16.entry_blocks [99] = 2 ∧
      find_file d16 [99] = none ∧ ¬ scans_one_block_claim d16 := by
  refine ⟨reachable_insert_list pairs16 init_htree_directory Reachable.init,
    by decide, by decide, by decide, ?_⟩
  intro hc
  have h2 := hc [99] (by decide)
  rw [show blocks_scanned d16.entry_blocks [99] = 2 from by decide] at h2
  exact absurd h2 (by decide)

/-- C2 amended: find_file scans the entry blocks in order, examining every
record of each block until a match, so its result is the scan of the
concatenation of all blocks' records, and it returns NotFound exactly when no
record of any entry block matches the name byte for byte. -/
theorem C2_find_scans_all_blocks (d : htree_directory) (name : List Nat) :
    find_file d name = find_in_entries (entries_of d.entry_blocks) name ∧
    (find_file d name = none ↔
      ∀ x ∈ entries_of d.entry_blocks, x.name ≠ name) := by
  have h1 : find_file d name = find_in_entries (entries_of d.entry_blocks) name := by
    simp only [find_file]
    exact find_in_blocks_eq_entries_of d.entry_blocks name
  exact ⟨h1, by rw [h1]; exact find_in_entries_none_iff (entries_of d.entry_blocks) name⟩

/-- C1 counterexample: after inserting name "a" with inode 1 and then again
with inode 2, lookup of "a" returns the record with inode 1, not the record
of the latest insertion, refuting the unconditional round-trip claim. -/
theorem C1_counterexample :
    Reachable (insert_file init_htree_directory [97] 1) ∧
      ([97] : List Nat).length ≤ MAX_FILENAME ∧
      (find_file (insert_file (insert_file init_htree_directory [97] 1) [97] 2)
          [97]).map dir_entry.inode = some 1 ∧
      (find_file (insert_file (insert_file init_htree_directory [97] 1) [97] 2)
          [97]).map dir_entry.inode ≠ some 2 :=
  ⟨Reachable.insert init_htree_directory [97] 1 Reachable.init,
    by decide, by decide, by decide⟩

/-- C1 amended: for every valid name (at most 255 bytes) not yet present in
any entry block, after insert_file the lookup returns a record carrying the
inserted inode. -/
theorem C1_roundtrip (d : htree_directory) (name : List Nat) (inode : Nat)
    (hlen : name.length ≤ MAX_FILENAME)
    (hfresh : ∀ x ∈ entries_of d.entry_blocks, x.name ≠ name) :
    ∃ e, find_file (insert_file d name inode) name = some e ∧
      e.inode = inode := by
  rcases insert_file_entries d name inode with ⟨A, B, h1, h2⟩
  refine ⟨mk_dir_entry name inode, ?_, rfl⟩
  have hA : ∀ x ∈ A, x.name ≠ name := by
    intro x hx
    exact hfresh x (by rw [h1]; exact List.mem_append_left B hx)
  have he : (mk_dir_entry name inode).name = name := by
    simp only [mk_dir_entry]
    exact take_full name MAX_FILENAME hlen
  simp only [find_file, find_in_blocks_eq_entries_of, h2]
  exact find_in_entries_first_match A B (mk_dir_entry name inode) name hA he

/-- Witness for C1 amended: inserting "a" with inode 5 into the fresh
directory and looking it up. -/
theorem C1_roundtrip_witness :
    ∃ e, find_file (insert_file init_htree_directory [97] 5) [97] = some e ∧
      e.inode = 5 :=
  C1_roundtrip init_htree_directory [97] 5 (by decide)
    (by intro x hx; simp [init_htree_directory, entries_of] at hx)

/-- C3 counterexample: the reachable one-block directory d_c3 has an entry
block, yet the root block holds no index record at all, so no index record
with hash at most the target exists and routing cannot return the
greatest-lower-bound boundary the claim describes. -/
theorem C3_counterexample :
    Reachable d_c3 ∧ 1 ≤ d_c3.num_entry_blocks ∧ ¬ glb_route_claim d_c3 := by
  refine ⟨Reachable.insert init_htree_directory [97] 1 Reachable.init,
    by decide, ?_⟩
  intro hc
  rcases hc 0 (by decide) with ⟨r, hr, -⟩
  rw [show d_c3.root_block.indices = [] from by decide] at hr
  simp at hr

/-- C3 amended: find_entry_block ignores its hash argument entirely; for any
two hashes it returns the same result, namely the first entry block whose
entry_count is below MAX_ENTRIES_PER_BLOCK (all earlier blocks being full)
with the directory unchanged, or, when every entry block is full or none
exists, the result of add_entry_block. -/
theorem C3_find_entry_block_ignores_hash (d : htree_directory) (h1 h2 : Nat) :
    find_entry_block d h1 = find_entry_block d h2 ∧
    ((∃ i b, find_entry_block d h1 = (d, i) ∧
        d.entry_blocks.get? i = some b ∧
        b.header.entry_count < MAX_ENTRIES_PER_BLOCK ∧
        ∀ k c, k < i → d.entry_blocks.get? k = some c →
          MAX_ENTRIES_PER_BLOCK ≤ c.header.entry_count) ∨
      ((∀ b ∈ d.entry_blocks, MAX_ENTRIES_PER_BLOCK ≤ b.header.entry_count) ∧
        find_entry_block d h1 = add_entry_block d)) := by
  refine ⟨rfl, ?_⟩
  cases hfree : find_free_idx d.entry_blocks with
  | some j =>
      left
      rcases find_free_idx_some d.entry_blocks j hfree with ⟨b, hb, hlt, hmin⟩
      exact ⟨j, b, by simp [find_entry_block, hfree], hb, hlt, hmin⟩
  | none =>
      right
      exact ⟨find_free_idx_none d.entry_blocks hfree,
        by simp [find_entry_block, hfree]⟩

/-- C4 counterexample: inserting a 300-byte name is not rejected — the
insertion goes through and stats() changes, refuting the claim that a
NameTooLong error is returned with the state left unchanged. -/
theorem C4_counterexample :
    name300.length = 300 ∧ MAX_FILENAME < name300.length ∧
      stats (insert_file init_htree_directory name300 1) ≠
        stats init_htree_directory :=
  ⟨by decide, by decide, by decide⟩

/-- C4 amended: insert_file performs no length check; a name longer than
MAX_FILENAME is inserted anyway with its stored name truncated by strncpy to
the first 255 bytes, and total_entries grows by one. -/
theorem C4_long_name_truncated (d : htree_directory) (name : List Nat)
    (inode : Nat) (hlong : MAX_FILENAME < name.length) :
    (stats (insert_file d name inode)).total_entries =
        (stats d).total_entries + 1 ∧
      (∃ A B, entries_of d.entry_blocks = A ++ B ∧
        entries_of (insert_file d name inode).entry_blocks =
          A ++ mk_dir_entry name inode :: B) ∧
      (mk_dir_entry name inode).name = name.take MAX_FILENAME ∧
      (mk_dir_entry name inode).name.length = MAX_FILENAME := by
  refine ⟨?_, insert_file_entries d name inode, rfl, ?_⟩
  · simp only [stats]
    exact insert_file_count_sum d name inode
  · simp only [mk_dir_entry, List.length_take]
    omega

/-- Witness for C4 amended: the 300-byte name inserted into the fresh
directory. -/
theorem C4_witness :
    (stats (insert_file init_htree_directory name300 1)).total_entries =
        (stats init_htree_directory).total_entries + 1 ∧
      (∃ A B, entries_of init_htree_directory.entry_blocks = A ++ B ∧
        entries_of (insert_file init_htree_directory name300 1).entry_blocks =
          A ++ mk_dir_entry name300 1 :: B) ∧
      (mk_dir_entry name300 1).name = name300.take MAX_FILENAME ∧
      (mk_dir_entry name300 1).name.length = MAX_FILENAME :=
  C4_long_name_truncated init_htree_directory name300 1 (by decide)

/-- C5 counterexample: the reachable one-block directory d_c5 has an entry
block, but the root block's (empty) index-record sequence covers no hash at
all, so the boundaries do not partition the 32-bit hash space. -/
theorem C5_counterexample :
    Reachable d_c5 ∧ 1 ≤ d_c5.num_entry_blocks ∧
      ¬ partition_invariant d_c5 := by
  refine ⟨Reachable.insert init_htree_directory [98] 7 Reachable.init,
    by decide, ?_⟩
  intro hp
  rcases hp.2.1 0 (by decide) with ⟨r, hr, -⟩
  rw [show d_c5.root_block.indices = [] from by decide] at hr
  simp at hr

/-- C5 amended: no insertion ever installs a boundary — in every reachable
state the root block holds no index records and there are no index blocks,
so whenever at least one entry block exists the partition property over
[0, 2^32) fails rather than holds. -/
theorem C5_no_boundaries (d : htree_directory) (hd : Reachable d) :
    d.root_block.indices = [] ∧ d.root_block.header.entry_count = 0 ∧
      d.index_blocks = [] ∧ d.num_index_blocks = 0 ∧
      (1 ≤ d.num_entry_blocks → ¬ partition_invariant d) := by
  rcases reachable_static d hd with ⟨h1, h2, h3⟩
  have hind : d.root_block.indices = [] := by rw [h1]; rfl
  have hcnt : d.root_block.header.entry_count = 0 := by rw [h1]; rfl
  refine ⟨hind, hcnt, h2, h3, ?_⟩
  intro _ hp
  rcases hp.2.1 0 (by decide) with ⟨r, hr, -⟩
  rw [hind] at hr
  simp at hr

/-- Witness for C5 amended at the reachable state d_c5. -/
theorem C5_witness :
    d_c5.root_block.indices = [] ∧ d_c5.root_block.header.entry_count = 0 ∧
      d_c5.index_blocks = [] ∧ d_c5.num_index_blocks = 0 ∧
      (1 ≤ d_c5.num_entry_blocks → ¬ partition_invariant d_c5) :=
  C5_no_boundaries d_c5
    (Reachable.insert init_htree_directory [98] 7 Reachable.init)

lemma cap_entry_bound (c : Nat) (h : c ≤ MAX_ENTRIES_PER_BLOCK) :
    c * dir_entry_size + header_size ≤ BLOCK_SIZE := by
  have h15 : MAX_ENTRIES_PER_BLOCK = 15 := by decide
  have hs : dir_entry_size = 264 := by decide
  have hh : header_size = 12 := by decide
  have hb : BLOCK_SIZE = 4096 := by decide
  rw [hs, hh, hb]
  rw [h15] at h
  omega

/-- C6: in every reachable state, every block satisfies the capacity bound of
its record kind: entry_count * record_size + header_size stays at most
BLOCK_SIZE and entry_count stays at most the record capacity of the kind. -/
theorem C6_capacity_invariant (d : htree_directory) (hd : Reachable d) :
    capacity_ok d := by
  rcases reachable_static d hd with ⟨h1, h2, h3⟩
  refine ⟨?_, ?_, ?_⟩
  · rw [h1]
    exact ⟨by decide, by decide⟩
  · rw [h2]
    intro b hb
    simp at hb
  · intro b hb
    have hle := reachable_counts d hd b hb
    exact ⟨cap_entry_bound b.header.entry_count hle, hle⟩

/-- Witness for C6 at the fresh directory. -/
theorem C6_witness : capacity_ok init_htree_directory :=
  C6_capacity_invariant init_htree_directory Reachable.init

/-- C8: starting from a fresh directory, inserting MAX_ENTRIES_PER_BLOCK
records never creates a second entry block at any of the intermediate
states, and the very next insertion raises the entry-block count from one to
exactly two. -/
theorem C8_block_overflow (ps : List (List Nat × Nat)) (name : List Nat)
    (inode : Nat) (hlen : ps.length = MAX_ENTRIES_PER_BLOCK) :
    (∀ k, k ≤ MAX_ENTRIES_PER_BLOCK →
      (insert_list init_htree_directory (ps.take k)).num_entry_blocks ≤ 1) ∧
    (insert_list init_htree_directory ps).num_entry_blocks = 1 ∧
    (insert_file (insert_list init_htree_directory ps) name
        inode).num_entry_blocks = 2 := by
  have h15 : MAX_ENTRIES_PER_BLOCK = 15 := by decide
  cases ps with
  | nil => rw [h15] at hlen; simp at hlen
  | cons p rest =>
      have hrest : rest.length = 14 := by
        rw [h15] at hlen; simpa using hlen
      rcases insert_from_init p.1 p.2 with ⟨hb1, hn1⟩
      have hc1 : (append_entry new_entry_block
          (mk_dir_entry p.1 p.2)).header.entry_count = 1 := rfl
      rcases insert_list_single rest (insert_file init_htree_directory p.1 p.2)
          (append_entry new_entry_block (mk_dir_entry p.1 p.2)) hb1 hn1
          (by rw [hc1, hrest, h15]) with ⟨c, hcB, hcN, hcC⟩
      have hcC15 : c.header.entry_count = 15 := by
        rw [hcC, hc1, hrest]
      refine ⟨?_, hcN, ?_⟩
      · intro k hk
        cases k with
        | zero => simp only [List.take_zero, insert_list]; decide
        | succ m =>
            have hm : m ≤ 14 := by rw [h15] at hk; omega
            simp only [List.take_succ_cons]
            show (insert_list (insert_file init_htree_directory p.1 p.2)
              (rest.take m)).num_entry_blocks ≤ 1
            rcases insert_list_single (rest.take m)
                (insert_file init_htree_directory p.1 p.2)
                (append_entry new_entry_block (mk_dir_entry p.1 p.2)) hb1 hn1
                (by rw [hc1, List.length_take, hrest, h15]; omega) with
              ⟨c2, -, hcN2, -⟩
            rw [hcN2]
      · have hfull : ¬ c.header.entry_count < MAX_ENTRIES_PER_BLOCK := by
          rw [hcC15, h15]; omega
        have := insert_full_single (insert_list
            (insert_file init_htree_directory p.1 p.2) rest) c name inode
            hcB hfull
        show (insert_file (insert_list
            (insert_file init_htree_directory p.1 p.2) rest) name
            inode).num_entry_blocks = 2
        rw [this, hcN]

/-- Witness for C8: fifteen concrete one-byte names, then one more. -/
theorem C8_witness :
    (∀ k, k ≤ MAX_ENTRIES_PER_BLOCK →
      (insert_list init_htree_directory (ps15.take k)).num_entry_blocks ≤ 1) ∧
    (insert_list init_htree_directory ps15).num_entry_blocks = 1 ∧
    (insert_file (insert_list init_htree_directory ps15) [99]
        500).num_entry_blocks = 2 :=
  C8_block_overflow ps15 [99] 500 (by decide)

/-- C9: evaluating the benchmark's insert path at a failing realloc shows a
partial state change: the insertion returns with num_entry_blocks already
incremented (and the entry-block array gone), while the malloc-failure path
does roll its increment back — the atomic-abort claim is the code's own
evident intent, violated on the realloc path. -/
theorem C9_partial_state_on_alloc_failure :
    insert_file_chk init_htree_directory [97] 1 false true ≠
        init_htree_directory ∧
      (insert_file_chk init_htree_directory [97] 1 false
          true).num_entry_blocks = 1 ∧
      init_htree_directory.num_entry_blocks = 0 ∧
      (insert_file_chk init_htree_directory [97] 1 true
          false).num_entry_blocks = 0 ∧
      insert_file_chk init_htree_directory [97] 1 true false =
        init_htree_directory :=
  ⟨by decide, by decide, by decide, by decide, by decide⟩

end HTree
